import Mathlib

/-!
Shallow embedding of the two `_find16` routines of kelindar/roaring
(`src/codegen/simd_avx.c` and `src/codegen/simd_avx512.c`).

Arrays of `uint16_t` are modelled as `List Nat` whose entries are the
unsigned 16-bit values; reading `input[i]` becomes `input.getD i 0`.
The `int64_t *result` out-parameter becomes the `Int` return value
(`-1` is the not-found sentinel).  Machine arithmetic that matters is
made explicit: the AVX2 compare `_mm256_cmpgt_epi16` works on the
*signed* reinterpretation of the 16-bit lanes, and the AVX512 variant
truncates its `uint64_t size` through a cast to 32-bit signed `int`.

The loops are written by structural recursion on an explicit iteration
count that is exactly the number of remaining loop steps, so that all
definitions compute by kernel reduction; the lemmas `tailLoop_eq`,
`strideLoop_eq` and `eqLoop_eq` recover the natural while-loop
unfoldings and are the only interface the proofs use.

To talk about (non-)mutation of the borrowed array, each routine is
additionally given a state-passing form (`find16S`) acting on a pair
`(memory of the array, contents of the result cell)`, translated
statement by statement from the C; the pure form is recovered from it.
-/

namespace Roaring

/-- Reinterpret an unsigned 16-bit value as the signed `int16_t` with the
same bit pattern (what `_mm256_set1_epi16((int16_t)target)` and the lanes
of `_mm256_cmpgt_epi16` operate on). -/
def toSigned16 (x : Nat) : Int :=
  if x < 32768 then (x : Int) else (x : Int) - 65536

/-- Truncate a `uint64_t` value to a 32-bit signed `int`, keeping the low
32 bits and reinterpreting them in two's complement — the effect of the
cast `(int)size` on mainstream toolchains. -/
def intOfUInt64 (x : Nat) : Int :=
  if x % 4294967296 < 2147483648 then ((x % 4294967296 : Nat) : Int)
  else ((x % 4294967296 : Nat) : Int) - 4294967296

namespace SimdAvx

/-- One lane of the AVX2 compare sequence: `cmp_lt = _mm256_cmpgt_epi16
(target_vec, data)` (a *signed* 16-bit compare) followed by the negation
`cmp_ge = _mm256_andnot_si256(cmp_lt, ones)`.  The lane is all-ones in
`cmp_ge` exactly when this returns `true`. -/
def laneGe (target elem : Nat) : Bool :=
  ! decide (toSigned16 target > toSigned16 elem)

/-- `_mm256_movemask_epi8` applied to `cmp_ge`: each 16-bit lane
contributes two mask bits (value `3` shifted to bit position `2*j` for
lane `j`), lane order mirroring memory order.  The input list holds the
16 lane values of one stride, earliest element first. -/
def maskOfLanes (target : Nat) : List Nat → Nat
  | [] => 0
  | e :: rest => (if laneGe target e then 3 else 0) + 4 * maskOfLanes target rest

/-- The 16 elements loaded by `_mm256_loadu_si256((__m256i*)(input + i))`. -/
def strideLanes (input : List Nat) (i : Nat) : List Nat :=
  (List.range 16).map fun j => input.getD (i + j) 0

/-- The byte mask the AVX2 code computes for the stride starting at `i`. -/
def strideMask (input : List Nat) (target i : Nat) : Nat :=
  maskOfLanes target (strideLanes input i)

/-- The inner scan `for (j = 0; j < 16; j++) if ((mask >> (j*2)) & 0x3) …`:
the first lane index whose two mask bits are not both zero. -/
def firstMaskBit (mask : Nat) : Option Nat :=
  (List.range 16).find? fun j => (mask >>> (2 * j)) &&& 3 != 0

/-- Iteration-counted form of the scalar loop
`for (; i < size; i++) if (input[i] >= target) { *result = i; return; }`;
the count argument is `size - i`, the exact number of remaining steps. -/
def tailFuel (input : List Nat) (target : Nat) : Nat → Nat → Int
  | 0, _ => -1
  | n + 1, i =>
    if target ≤ input.getD i 0 then (i : Int)
    else tailFuel input target n (i + 1)

/-- The scalar loop of `simd_avx.c`, scanning indices `i, i+1, …, size-1`
(used both as the small-array bypass and as the tail loop). -/
def tailLoop (input : List Nat) (target size i : Nat) : Int :=
  tailFuel input target (size - i) i

/-- Iteration-counted form of the strided loop
`for (; i + 15 < size; i += 16)` of `simd_avx.c`; the count argument is
`(size - i + 15) / 16`, the exact number of remaining full strides
rounded so that a partial remainder falls through to the tail loop. -/
def strideFuel (input : List Nat) (target size : Nat) : Nat → Nat → Int
  | 0, i => tailLoop input target size i
  | n + 1, i =>
    if i + 15 < size then
      let mask := strideMask input target i
      if mask ≠ 0 then
        match firstMaskBit mask with
        | some j => ((i + j : Nat) : Int)
        | none => strideFuel input target size n (i + 16)
      else strideFuel input target size n (i + 16)
    else tailLoop input target size i

/-- The strided loop of `simd_avx.c` starting at index `i`, followed by
the scalar tail loop. -/
def strideLoop (input : List Nat) (target size i : Nat) : Int :=
  strideFuel input target size ((size - i + 15) / 16) i

/-- Lines 24–58 of `simd_avx.c`: the vectorized path (strided loop plus
scalar tail), without the `size == 0` and `size <= 16` early exits. -/
def vectorPath (input : List Nat) (target size : Nat) : Int :=
  strideLoop input target size 0

/-- `_find16` of `src/codegen/simd_avx.c`. -/
def find16 (input : List Nat) (target size : Nat) : Int :=
  if size = 0 then -1
  else if size ≤ 16 then tailLoop input target size 0
  else strideLoop input target size 0

/-- State-passing form of the scalar loop: the state is the pair
`(array memory, result cell)`; a hit writes the result cell, and loop
exit leaves the state untouched. -/
def tailFuelS (target : Nat) : Nat → Nat → List Nat × Int → List Nat × Int
  | 0, _, s => s
  | n + 1, i, s =>
    if target ≤ s.1.getD i 0 then (s.1, (i : Int))
    else tailFuelS target n (i + 1) s

/-- State-passing form of `tailLoop`. -/
def tailLoopS (target size i : Nat) (s : List Nat × Int) : List Nat × Int :=
  tailFuelS target (size - i) i s

/-- State-passing form of the strided loop. -/
def strideFuelS (target size : Nat) : Nat → Nat → List Nat × Int → List Nat × Int
  | 0, i, s => tailLoopS target size i s
  | n + 1, i, s =>
    if i + 15 < size then
      let mask := strideMask s.1 target i
      if mask ≠ 0 then
        match firstMaskBit mask with
        | some j => (s.1, ((i + j : Nat) : Int))
        | none => strideFuelS target size n (i + 16) s
      else strideFuelS target size n (i + 16) s
    else tailLoopS target size i s

/-- State-passing form of `strideLoop`. -/
def strideLoopS (target size i : Nat) (s : List Nat × Int) : List Nat × Int :=
  strideFuelS target size ((size - i + 15) / 16) i s

/-- State-passing form of `_find16` of `simd_avx.c`: the entry statement
`*result = -1` overwrites the result cell, then the chosen loop runs. -/
def find16S (target size : Nat) (s : List Nat × Int) : List Nat × Int :=
  let s0 : List Nat × Int := (s.1, -1)
  if size = 0 then s0
  else if size ≤ 16 then tailLoopS target size 0 s0
  else strideLoopS target size 0 s0

end SimdAvx

namespace SimdAvx512

/-- Iteration-counted form of the loop
`for (int i = 0; i < (int)size; i++) if (input[i] == target) …` of
`simd_avx512.c`; the count argument is `bound - i`. -/
def eqFuel (input : List Nat) (target : Nat) : Nat → Nat → Int
  | 0, _ => -1
  | n + 1, i =>
    if input.getD i 0 = target then (i : Int)
    else eqFuel input target n (i + 1)

/-- The equality-scan loop of `simd_avx512.c` over indices
`i, i+1, …, bound-1`. -/
def eqLoop (input : List Nat) (target bound i : Nat) : Int :=
  eqFuel input target (bound - i) i

/-- `_find16` of `src/codegen/simd_avx512.c`: the loop bound is the
`uint64_t` size truncated by the cast `(int)size`; a non-positive bound
means the loop body never runs and the initial `*result = -1` stands. -/
def find16 (input : List Nat) (target size : Nat) : Int :=
  eqLoop input target (intOfUInt64 size).toNat 0

/-- State-passing form of the equality-scan loop. -/
def eqFuelS (target : Nat) : Nat → Nat → List Nat × Int → List Nat × Int
  | 0, _, s => s
  | n + 1, i, s =>
    if s.1.getD i 0 = target then (s.1, (i : Int))
    else eqFuelS target n (i + 1) s

/-- State-passing form of `_find16` of `simd_avx512.c`. -/
def find16S (target size : Nat) (s : List Nat × Int) : List Nat × Int :=
  let s0 : List Nat × Int := (s.1, -1)
  eqFuelS target (intOfUInt64 size).toNat 0 s0

end SimdAvx512

namespace SimdAvx

/-- The while-loop unfolding of `tailLoop`. -/
theorem tailLoop_eq (input : List Nat) (target size i : Nat) :
    tailLoop input target size i =
      if i < size then
        if target ≤ input.getD i 0 then (i : Int)
        else tailLoop input target size (i + 1)
      else -1 := by
  rcases Nat.lt_or_ge i size with h | h
  · have hd : size - i = (size - (i + 1)) + 1 := by omega
    simp only [tailLoop, hd, tailFuel, if_pos h]
  · have hd : size - i = 0 := by omega
    simp only [tailLoop, hd, tailFuel, if_neg (Nat.not_lt.mpr h)]

theorem strideFuel_stop (input : List Nat) (target size i : Nat)
    (h : ¬ i + 15 < size) (f : Nat) :
    strideFuel input target size f i = tailLoop input target size i := by
  cases f <;> simp only [strideFuel, if_neg h]

/-- The while-loop unfolding of `strideLoop`. -/
theorem strideLoop_eq (input : List Nat) (target size i : Nat) :
    strideLoop input target size i =
      if i + 15 < size then
        if strideMask input target i ≠ 0 then
          match firstMaskBit (strideMask input target i) with
          | some j => ((i + j : Nat) : Int)
          | none => strideLoop input target size (i + 16)
        else strideLoop input target size (i + 16)
      else tailLoop input target size i := by
  rcases Nat.lt_or_ge (i + 15) size with h | h
  · have hd : (size - i + 15) / 16 = ((size - (i + 16) + 15) / 16) + 1 := by omega
    simp only [strideLoop, hd, strideFuel, if_pos h]
  · have hle : ¬ i + 15 < size := Nat.not_lt.mpr h
    rw [strideLoop, strideFuel_stop input target size i hle, if_neg hle]

end SimdAvx

namespace SimdAvx512

/-- The while-loop unfolding of `eqLoop`. -/
theorem eqLoop_eq (input : List Nat) (target bound i : Nat) :
    eqLoop input target bound i =
      if i < bound then
        if input.getD i 0 = target then (i : Int)
        else eqLoop input target bound (i + 1)
      else -1 := by
  rcases Nat.lt_or_ge i bound with h | h
  · have hd : bound - i = (bound - (i + 1)) + 1 := by omega
    simp only [eqLoop, hd, eqFuel, if_pos h]
  · have hd : bound - i = 0 := by omega
    simp only [eqLoop, hd, eqFuel, if_neg (Nat.not_lt.mpr h)]

end SimdAvx512

theorem find?_congr_mem {α : Type} {p q : α → Bool} :
    ∀ l : List α, (∀ x ∈ l, p x = q x) → l.find? p = l.find? q := by
  intro l
  induction l with
  | nil => intro _; rfl
  | cons a l ih =>
    intro h
    have ha := h a (List.mem_cons_self a l)
    cases hq : q a with
    | true =>
      rw [List.find?_cons_of_pos l (by rw [ha, hq]), List.find?_cons_of_pos l hq]
    | false =>
      rw [List.find?_cons_of_neg l (by rw [ha, hq]; exact Bool.false_ne_true),
        List.find?_cons_of_neg l (by rw [hq]; exact Bool.false_ne_true),
        ih fun x hx => h x (List.mem_cons_of_mem a hx)]

/-- What `List.find?` returns on an initial segment of the naturals: the
least index satisfying the predicate, if any. -/
theorem find?_range_spec (p : Nat → Bool) (n : Nat) :
    ((List.range n).find? p = none ∧ ∀ k < n, p k = false) ∨
    (∃ j, (List.range n).find? p = some j ∧ j < n ∧ p j = true ∧
      ∀ k < j, p k = false) := by
  induction n with
  | zero =>
    left
    exact ⟨rfl, fun k hk => absurd hk (Nat.not_lt_zero k)⟩
  | succ n ih =>
    rw [List.range_succ]
    rcases ih with ⟨hn, hall⟩ | ⟨j, hj, hjn, hpj, hmin⟩
    · rw [List.find?_append, hn, Option.none_or]
      cases hp : p n with
      | true =>
        right
        exact ⟨n, by simp [List.find?, hp], Nat.lt_succ_self n, hp,
          fun k hk => hall k hk⟩
      | false =>
        left
        refine ⟨by simp [List.find?, hp], fun k hk => ?_⟩
        rcases Nat.lt_or_ge k n with h | h
        · exact hall k h
        · have hkn : k = n := by omega
          rw [hkn]; exact hp
    · right
      refine ⟨j, ?_, by omega, hpj, hmin⟩
      rw [List.find?_append, hj]; rfl

namespace SimdAvx

theorem and_three_eq_mod (x : Nat) : x &&& 3 = x % 4 := by
  have h := Nat.and_pow_two_sub_one_eq_mod x 2
  norm_num at h
  exact h

theorem maskOfLanes_zero_iff (t : Nat) (L : List Nat) :
    maskOfLanes t L = 0 ↔ ∀ e ∈ L, laneGe t e = false := by
  induction L with
  | nil => simp [maskOfLanes]
  | cons e rest ih =>
    cases hg : laneGe t e with
    | true =>
      have hm : maskOfLanes t (e :: rest) = 3 + 4 * maskOfLanes t rest := by
        rw [maskOfLanes, if_pos hg]
      rw [hm, List.forall_mem_cons]
      constructor
      · intro h; omega
      · rintro ⟨h, -⟩; simp [hg] at h
    | false =>
      have hm : maskOfLanes t (e :: rest) = 4 * maskOfLanes t rest := by
        rw [maskOfLanes, if_neg (by rw [hg]; exact Bool.false_ne_true), Nat.zero_add]
      rw [hm, List.forall_mem_cons, ← ih]
      constructor
      · intro h; exact ⟨hg, by omega⟩
      · rintro ⟨-, h⟩; omega

/-- The two mask bits of lane `j`, read back with `(mask >> (j*2)) & 0x3`:
they are `3` when lane `j` compared greater-or-equal, `0` otherwise. -/
theorem maskOfLanes_shift_and (t : Nat) :
    ∀ (L : List Nat) (j : Nat), j < L.length →
      (maskOfLanes t L >>> (2 * j)) &&& 3 =
        if laneGe t (L.getD j 0) then 3 else 0 := by
  intro L
  induction L with
  | nil =>
    intro j hj
    exact absurd hj (by simp)
  | cons e rest ih =>
    intro j hj
    cases j with
    | zero =>
      rw [Nat.mul_zero, Nat.shiftRight_zero, and_three_eq_mod, List.getD_cons_zero]
      cases hg : laneGe t e with
      | true =>
        rw [maskOfLanes, if_pos hg, if_pos rfl]; omega
      | false =>
        have hne : ¬ (laneGe t e = true) := by rw [hg]; exact Bool.false_ne_true
        rw [maskOfLanes, if_neg hne, if_neg Bool.false_ne_true]; omega
    | succ k =>
      have hk : k < rest.length := by simpa using hj
      have hpow : (2 : Nat) ^ (2 * (k + 1)) = 4 * 2 ^ (2 * k) := by
        rw [show 2 * (k + 1) = 2 * k + 2 by ring, pow_add]; ring
      have hdiv : maskOfLanes t (e :: rest) / 4 = maskOfLanes t rest := by
        cases hg : laneGe t e with
        | true => rw [maskOfLanes, if_pos hg]; omega
        | false =>
          rw [maskOfLanes,
            if_neg (by rw [hg]; exact Bool.false_ne_true)]; omega
      have hshift : maskOfLanes t (e :: rest) >>> (2 * (k + 1)) =
          maskOfLanes t rest >>> (2 * k) := by
        rw [Nat.shiftRight_eq_div_pow, Nat.shiftRight_eq_div_pow, hpow,
          ← Nat.div_div_eq_div_mul, hdiv]
      rw [hshift, ih k hk, List.getD_cons_succ]

theorem strideLanes_length (input : List Nat) (i : Nat) :
    (strideLanes input i).length = 16 := by
  simp [strideLanes]

theorem strideLanes_getD (input : List Nat) (i j : Nat) (hj : j < 16) :
    (strideLanes input i).getD j 0 = input.getD (i + j) 0 := by
  simp [strideLanes, List.getD_eq_getElem?_getD, List.getElem?_map,
    List.getElem?_range hj]

/-- The inner bit scan of the AVX2 code finds exactly the first lane
whose element compared greater-or-equal (in the signed lane order). -/
theorem firstMaskBit_eq_find (input : List Nat) (t i : Nat) :
    firstMaskBit (strideMask input t i) =
      (List.range 16).find? fun j => laneGe t (input.getD (i + j) 0) := by
  unfold firstMaskBit
  apply find?_congr_mem
  intro j hj
  have hj16 : j < 16 := List.mem_range.mp hj
  have hlen : j < (strideLanes input i).length := by
    rw [strideLanes_length]; exact hj16
  rw [strideMask, maskOfLanes_shift_and t (strideLanes input i) j hlen,
    strideLanes_getD input i j hj16]
  cases hg : laneGe t (input.getD (i + j) 0) with
  | true => rfl
  | false => rfl

/-- The stride mask is zero exactly when no lane of the stride compared
greater-or-equal (in the signed lane order). -/
theorem strideMask_zero_iff (input : List Nat) (t i : Nat) :
    strideMask input t i = 0 ↔
      ∀ j < 16, laneGe t (input.getD (i + j) 0) = false := by
  rw [strideMask, maskOfLanes_zero_iff]
  constructor
  · intro h j hj
    exact h _ (List.mem_map.mpr ⟨j, List.mem_range.mpr hj, rfl⟩)
  · intro h e he
    obtain ⟨j, hj, rfl⟩ := List.mem_map.mp he
    exact h j (List.mem_range.mp hj)

/-- The scalar loop passes unchanged over a block of elements that are
all below the target. -/
theorem tailLoop_skip (input : List Nat) (t size : Nat) :
    ∀ (m i : Nat), i + m ≤ size → (∀ j < m, ¬ t ≤ input.getD (i + j) 0) →
      tailLoop input t size i = tailLoop input t size (i + m) := by
  intro m
  induction m with
  | zero => intro i _ _; rfl
  | succ m ih =>
    intro i hle h
    have hi : i < size := by omega
    have h0 : ¬ t ≤ input.getD i 0 := by
      have h0' := h 0 (Nat.succ_pos m)
      rw [Nat.add_zero] at h0'
      exact h0'
    have hrest : ∀ j < m, ¬ t ≤ input.getD (i + 1 + j) 0 := by
      intro j hj
      have h2 := h (j + 1) (by omega)
      rw [show i + (j + 1) = i + 1 + j by omega] at h2
      exact h2
    have harith : i + 1 + m = i + (m + 1) := by omega
    rw [tailLoop_eq, if_pos hi, if_neg h0, ih (i + 1) (by omega) hrest, harith]

/-- The scalar loop returns `i + m` when the `m` elements before it fail
the comparison and the element at `i + m` passes it. -/
theorem tailLoop_found (input : List Nat) (t size m i : Nat)
    (hlt : i + m < size) (hmin : ∀ j < m, ¬ t ≤ input.getD (i + j) 0)
    (hge : t ≤ input.getD (i + m) 0) :
    tailLoop input t size i = ((i + m : Nat) : Int) := by
  rw [tailLoop_skip input t size m i (by omega) hmin, tailLoop_eq,
    if_pos hlt, if_pos hge]

/-- Master simulation lemma: whenever the signed lane compare agrees with
the unsigned scalar compare on every element the loops can read, the
strided loop computes exactly what the scalar loop computes. -/
theorem strideLoop_eq_tailLoop (input : List Nat) (t size : Nat)
    (H : ∀ j, laneGe t (input.getD j 0) = decide (t ≤ input.getD j 0))
    (i : Nat) : strideLoop input t size i = tailLoop input t size i := by
  rw [strideLoop_eq]
  by_cases hg : i + 15 < size
  · rw [if_pos hg]
    by_cases hm : strideMask input t i = 0
    · rw [if_neg (not_not_intro hm),
        strideLoop_eq_tailLoop input t size H (i + 16)]
      have hskip : ∀ j < 16, ¬ t ≤ input.getD (i + j) 0 := by
        intro j hj
        have hl := (strideMask_zero_iff input t i).mp hm j hj
        rw [H (i + j)] at hl
        simpa using hl
      exact (tailLoop_skip input t size 16 i (by omega) hskip).symm
    · rw [if_pos hm]
      rcases find?_range_spec (fun j => laneGe t (input.getD (i + j) 0)) 16 with
        ⟨hnone, hall⟩ | ⟨j, hsome, hj16, hpj, hmin⟩
      · exact absurd ((strideMask_zero_iff input t i).mpr fun j hj => hall j hj) hm
      · rw [firstMaskBit_eq_find, hsome]
        have hge : t ≤ input.getD (i + j) 0 := by
          have hp := hpj
          rw [H (i + j)] at hp
          simpa using hp
        have hmin2 : ∀ k < j, ¬ t ≤ input.getD (i + k) 0 := by
          intro k hk
          have hp := hmin k hk
          rw [H (i + k)] at hp
          simpa using hp
        exact (tailLoop_found input t size j i (by omega) hmin2 hge).symm
  · rw [if_neg hg]
termination_by size - i
decreasing_by omega

/-- The scalar loop computes the first index at or after `i` (and below
`size`) whose element is `>= target`, or `-1` if there is none. -/
theorem tailLoop_spec (input : List Nat) (t size i : Nat) :
    (tailLoop input t size i = -1 ∧ ∀ j, i ≤ j → j < size → input.getD j 0 < t) ∨
    (∃ j : Nat, tailLoop input t size i = (j : Int) ∧ i ≤ j ∧ j < size ∧
      t ≤ input.getD j 0 ∧ ∀ k, i ≤ k → k < j → input.getD k 0 < t) := by
  by_cases hi : i < size
  · by_cases hge : t ≤ input.getD i 0
    · right
      exact ⟨i, by rw [tailLoop_eq, if_pos hi, if_pos hge], Nat.le_refl i, hi, hge,
        fun k hik hki => by omega⟩
    · rcases tailLoop_spec input t size (i + 1) with ⟨hm1, hall⟩ | ⟨j, hj, hij, hjs, hge2, hmin⟩
      · left
        refine ⟨by rw [tailLoop_eq, if_pos hi, if_neg hge]; exact hm1,
          fun j hij hjs => ?_⟩
        rcases Nat.eq_or_lt_of_le hij with rfl | h
        · omega
        · exact hall j h hjs
      · right
        refine ⟨j, by rw [tailLoop_eq, if_pos hi, if_neg hge]; exact hj,
          by omega, hjs, hge2, fun k hik hkj => ?_⟩
        rcases Nat.eq_or_lt_of_le hik with rfl | h
        · omega
        · exact hmin k h hkj
  · left
    exact ⟨by rw [tailLoop_eq, if_neg hi], fun j hij hjs => by omega⟩
termination_by size - i
decreasing_by omega

end SimdAvx

namespace SimdAvx512

/-- The equality loop computes the first index at or after `i` (and below
`bound`) whose element equals the target, or `-1` if there is none. -/
theorem eqLoop_spec (input : List Nat) (t bound i : Nat) :
    (eqLoop input t bound i = -1 ∧ ∀ j, i ≤ j → j < bound → input.getD j 0 ≠ t) ∨
    (∃ j : Nat, eqLoop input t bound i = (j : Int) ∧ i ≤ j ∧ j < bound ∧
      input.getD j 0 = t ∧ ∀ k, i ≤ k → k < j → input.getD k 0 ≠ t) := by
  by_cases hi : i < bound
  · by_cases heq : input.getD i 0 = t
    · right
      exact ⟨i, by rw [eqLoop_eq, if_pos hi, if_pos heq], Nat.le_refl i, hi, heq,
        fun k hik hki => by omega⟩
    · rcases eqLoop_spec input t bound (i + 1) with ⟨hm1, hall⟩ | ⟨j, hj, hij, hjs, heq2, hmin⟩
      · left
        refine ⟨by rw [eqLoop_eq, if_pos hi, if_neg heq]; exact hm1,
          fun j hij hjs => ?_⟩
        rcases Nat.eq_or_lt_of_le hij with rfl | h
        · exact heq
        · exact hall j h hjs
      · right
        refine ⟨j, by rw [eqLoop_eq, if_pos hi, if_neg heq]; exact hj,
          by omega, hjs, heq2, fun k hik hkj => ?_⟩
        rcases Nat.eq_or_lt_of_le hik with rfl | h
        · exact heq
        · exact hmin k h hkj
  · left
    exact ⟨by rw [eqLoop_eq, if_neg hi], fun j hij hjs => by omega⟩
termination_by bound - i
decreasing_by omega

end SimdAvx512

namespace SimdAvx

/-- The stride mask only depends on the elements at indices the stride
reads, all of which lie below `size` when the stride guard holds. -/
theorem strideMask_congr (A B : List Nat) (t size i : Nat)
    (hg : i + 15 < size) (h : ∀ j < size, A.getD j 0 = B.getD j 0) :
    strideMask A t i = strideMask B t i := by
  unfold strideMask strideLanes
  congr 1
  apply List.map_congr_left
  intro j hj
  exact h (i + j) (by have := List.mem_range.mp hj; omega)

theorem tailLoop_congr (A B : List Nat) (t size : Nat)
    (h : ∀ j < size, A.getD j 0 = B.getD j 0) (i : Nat) :
    tailLoop A t size i = tailLoop B t size i := by
  by_cases hi : i < size
  · rw [tailLoop_eq A t size i, tailLoop_eq B t size i, if_pos hi, if_pos hi,
      h i hi]
    by_cases hge : t ≤ B.getD i 0
    · rw [if_pos hge, if_pos hge]
    · rw [if_neg hge, if_neg hge]
      exact tailLoop_congr A B t size h (i + 1)
  · rw [tailLoop_eq A t size i, tailLoop_eq B t size i, if_neg hi, if_neg hi]
termination_by size - i
decreasing_by omega

theorem strideLoop_congr (A B : List Nat) (t size : Nat)
    (h : ∀ j < size, A.getD j 0 = B.getD j 0) (i : Nat) :
    strideLoop A t size i = strideLoop B t size i := by
  rw [strideLoop_eq A t size i, strideLoop_eq B t size i]
  by_cases hg : i + 15 < size
  · rw [if_pos hg, if_pos hg, strideMask_congr A B t size i hg h]
    by_cases hm : strideMask B t i ≠ 0
    · rw [if_pos hm, if_pos hm]
      cases firstMaskBit (strideMask B t i) with
      | some j => rfl
      | none => exact strideLoop_congr A B t size h (i + 16)
    · rw [if_neg hm, if_neg hm]
      exact strideLoop_congr A B t size h (i + 16)
  · rw [if_neg hg, if_neg hg]
    exact tailLoop_congr A B t size h i
termination_by size - i
decreasing_by all_goals omega

/-- On values below `2^15` the signed lane compare agrees with the
unsigned scalar compare. -/
theorem laneGe_eq_of_lt (t e : Nat) (ht : t < 32768) (he : e < 32768) :
    laneGe t e = decide (t ≤ e) := by
  unfold laneGe toSigned16
  rw [if_pos ht, if_pos he]
  by_cases h : t ≤ e
  · have h1 : ¬ ((t : Int) > (e : Int)) := by
      rw [gt_iff_lt, Int.not_lt]
      exact_mod_cast h
    simp [h, h1]
  · have h1 : (t : Int) > (e : Int) := by
      rw [gt_iff_lt]
      exact_mod_cast Nat.lt_of_not_le h
    simp [h, h1]

/-- When the key and all stored elements are below `2^15`, every element
the loops can read (stored or out-of-range default `0`) satisfies the
compare agreement. -/
theorem laneGe_agree (A : List Nat) (t : Nat) (ht : t < 32768)
    (hA : ∀ x ∈ A, x < 32768) (j : Nat) :
    laneGe t (A.getD j 0) = decide (t ≤ A.getD j 0) := by
  apply laneGe_eq_of_lt t _ ht
  by_cases hj : j < A.length
  · rw [List.getD_eq_getElem A 0 hj]
    exact hA _ (List.getElem_mem hj)
  · rw [List.getD_eq_default A 0 (Nat.le_of_not_lt hj)]
    omega

end SimdAvx

/-- Claim C6: the Wide Vector Scanner reads no element at an index `≥
size`: its result only depends on the values at indices below `size`, so
any two memories agreeing there give the same result. -/
theorem claim_c6_no_out_of_bounds (A B : List Nat) (k size : Nat)
    (h : ∀ j < size, A.getD j 0 = B.getD j 0) :
    SimdAvx.find16 A k size = SimdAvx.find16 B k size := by
  unfold SimdAvx.find16
  by_cases h0 : size = 0
  · rw [if_pos h0, if_pos h0]
  · rw [if_neg h0, if_neg h0]
    by_cases h16 : size ≤ 16
    · rw [if_pos h16, if_pos h16]
      exact SimdAvx.tailLoop_congr A B k size h 0
    · rw [if_neg h16, if_neg h16]
      exact SimdAvx.strideLoop_congr A B k size h 0

/-- Witness for C6 at a concrete input: `[1, 2]` and `[1, 2, 99]` agree
below length `2` and the scanner returns the same index on both. -/
theorem claim_c6_no_out_of_bounds_witness :
    (∀ j < 2, ([1, 2] : List Nat).getD j 0 = ([1, 2, 99] : List Nat).getD j 0) ∧
    SimdAvx.find16 [1, 2] 2 2 = SimdAvx.find16 [1, 2, 99] 2 2 :=
  ⟨by decide, claim_c6_no_out_of_bounds [1, 2] [1, 2, 99] 2 2 (by decide)⟩

/-- Claim C9: when the key and every element of the sorted array are
below `2^15` (so signed and unsigned 16-bit comparison agree), the Wide
Vector Scanner returns the first index below `size` whose element is
`>= key`, and `-1` when there is none. -/
theorem claim_c9_restricted_domain_correct (A : List Nat) (k size : Nat)
    (_hsorted : List.Chain' (fun a b => a ≤ b) A) (hk : k < 32768)
    (hA : ∀ x ∈ A, x < 32768) :
    (SimdAvx.find16 A k size = -1 ∧ ∀ i < size, A.getD i 0 < k) ∨
    (∃ i : Nat, SimdAvx.find16 A k size = (i : Int) ∧ i < size ∧
      k ≤ A.getD i 0 ∧ ∀ j < i, A.getD j 0 < k) := by
  have hfind : SimdAvx.find16 A k size = SimdAvx.tailLoop A k size 0 := by
    unfold SimdAvx.find16
    by_cases h0 : size = 0
    · rw [if_pos h0, h0]; rfl
    · rw [if_neg h0]
      by_cases h16 : size ≤ 16
      · rw [if_pos h16]
      · rw [if_neg h16]
        exact SimdAvx.strideLoop_eq_tailLoop A k size
          (SimdAvx.laneGe_agree A k hk hA) 0
  rw [hfind]
  rcases SimdAvx.tailLoop_spec A k size 0 with ⟨h1, h2⟩ | ⟨j, h1, _, hjs, hge, hmin⟩
  · exact Or.inl ⟨h1, fun i hi => h2 i (Nat.zero_le i) hi⟩
  · exact Or.inr ⟨j, h1, hjs, hge, fun i hij => hmin i (Nat.zero_le i) hij⟩

/-- Witness for C9 at the spec's worked example: `A = [1,4,4,9,20,20,21]`,
`k = 10`, expected result `4`. -/
theorem claim_c9_restricted_domain_correct_witness :
    (List.Chain' (fun a b => a ≤ b) ([1, 4, 4, 9, 20, 20, 21] : List Nat) ∧
      (10 : Nat) < 32768 ∧ ∀ x ∈ ([1, 4, 4, 9, 20, 20, 21] : List Nat), x < 32768) ∧
    ((SimdAvx.find16 [1, 4, 4, 9, 20, 20, 21] 10 7 = -1 ∧
        ∀ i < 7, ([1, 4, 4, 9, 20, 20, 21] : List Nat).getD i 0 < 10) ∨
      (∃ i : Nat, SimdAvx.find16 [1, 4, 4, 9, 20, 20, 21] 10 7 = (i : Int) ∧
        i < 7 ∧ 10 ≤ ([1, 4, 4, 9, 20, 20, 21] : List Nat).getD i 0 ∧
        ∀ j < i, ([1, 4, 4, 9, 20, 20, 21] : List Nat).getD j 0 < 10)) :=
  ⟨⟨by norm_num [List.chain'_cons], by decide, by decide⟩,
    claim_c9_restricted_domain_correct [1, 4, 4, 9, 20, 20, 21] 10 7
      (by norm_num [List.chain'_cons]) (by decide) (by decide)⟩

/-- Counterexample to C4 as stated: at `size = 2^31` the cast `(int)size`
makes the loop bound non-positive, so the Extra-Wide Vector Scanner
returns `-1` even though index `0` holds an element equal to the key
(the claim, quantified over every `uint64` length, demands index `0`). -/
theorem claim_c4_counterexample :
    SimdAvx512.find16 [5] 5 2147483648 = -1 ∧
    ([5] : List Nat).getD 0 0 = 5 ∧ (0 : Nat) < 2147483648 := by
  refine ⟨?_, by decide, by decide⟩
  decide

/-- Claim C4, amended: for every length below `2^31` (where the cast
`(int)size` is the identity), the Extra-Wide Vector Scanner iterates the
indices in order and returns the first index whose element equals the
key, or `-1` when there is none. -/
theorem claim_c4_amended_eq_scan (A : List Nat) (k size : Nat)
    (hsize : size < 2147483648) :
    (SimdAvx512.find16 A k size = -1 ∧ ∀ i < size, A.getD i 0 ≠ k) ∨
    (∃ i : Nat, SimdAvx512.find16 A k size = (i : Int) ∧ i < size ∧
      A.getD i 0 = k ∧ ∀ j < i, A.getD j 0 ≠ k) := by
  have hb : (intOfUInt64 size).toNat = size := by
    unfold intOfUInt64
    have h1 : size % 4294967296 = size := Nat.mod_eq_of_lt (by omega)
    rw [h1, if_pos hsize]
    exact Int.toNat_ofNat size
  unfold SimdAvx512.find16
  rw [hb]
  rcases SimdAvx512.eqLoop_spec A k size 0 with ⟨h1, h2⟩ | ⟨j, h1, _, hjs, heq, hmin⟩
  · exact Or.inl ⟨h1, fun i hi => h2 i (Nat.zero_le i) hi⟩
  · exact Or.inr ⟨j, h1, hjs, heq, fun i hij => hmin i (Nat.zero_le i) hij⟩

/-- Witness for the amended C4: on `[3, 3, 5]` with key `5` the scanner
returns the first (only) index holding `5`, namely `2`. -/
theorem claim_c4_amended_eq_scan_witness :
    (3 : Nat) < 2147483648 ∧
    ((SimdAvx512.find16 [3, 3, 5] 5 3 = -1 ∧
        ∀ i < 3, ([3, 3, 5] : List Nat).getD i 0 ≠ 5) ∨
      (∃ i : Nat, SimdAvx512.find16 [3, 3, 5] 5 3 = (i : Int) ∧ i < 3 ∧
        ([3, 3, 5] : List Nat).getD i 0 = 5 ∧
        ∀ j < i, ([3, 3, 5] : List Nat).getD j 0 ≠ 5)) :=
  ⟨by decide, claim_c4_amended_eq_scan [3, 3, 5] 5 3 (by decide)⟩

/-- Claim C10: the Extra-Wide Vector Scanner truncates its `uint64` size
through `(int)size`: for `2^31 ≤ size ≤ 2^32` the bound is non-positive
and the function returns `-1` without reading any element, and in
general only the low 32 bits of the size (two's-complement) limit the
scan. -/
theorem claim_c10_size_truncation (A : List Nat) (k size : Nat)
    (h1 : 2147483648 ≤ size) (h2 : size ≤ 4294967296) :
    (intOfUInt64 size ≤ 0 ∧ SimdAvx512.find16 A k size = -1) ∧
    ∀ s : Nat, SimdAvx512.find16 A k s = SimdAvx512.find16 A k (s % 4294967296) := by
  have hle : intOfUInt64 size ≤ 0 := by
    unfold intOfUInt64
    have hm : size % 4294967296 = 0 ∨
        (2147483648 ≤ size % 4294967296 ∧ size % 4294967296 < 4294967296) := by
      omega
    rcases hm with hz | ⟨hlo, hhi⟩
    · rw [hz]
      simp
    · rw [if_neg (by omega)]
      have hcast : ((size % 4294967296 : Nat) : Int) < 4294967296 := by
        exact_mod_cast hhi
      omega
  have hz : (intOfUInt64 size).toNat = 0 := Int.toNat_of_nonpos hle
  refine ⟨⟨hle, ?_⟩, fun s => ?_⟩
  · unfold SimdAvx512.find16
    rw [hz]
    rfl
  · unfold SimdAvx512.find16 intOfUInt64
    have hmm : s % 4294967296 % 4294967296 = s % 4294967296 := by omega
    rw [hmm]

/-- Witness for C10 at `size = 2^31`, also checking the low-bits
equation at `size = 2^32 + 3` against `size = 3`. -/
theorem claim_c10_size_truncation_witness :
    ((2147483648 : Nat) ≤ 2147483648 ∧ (2147483648 : Nat) ≤ 4294967296) ∧
    (intOfUInt64 2147483648 ≤ 0 ∧ SimdAvx512.find16 [5] 5 2147483648 = -1) ∧
    SimdAvx512.find16 [5] 5 4294967299 = SimdAvx512.find16 [5] 5 (4294967299 % 4294967296) :=
  ⟨⟨by decide, by decide⟩,
    (claim_c10_size_truncation [5] 5 2147483648 (by decide) (by decide)).1,
    (claim_c10_size_truncation [5] 5 2147483648 (by decide) (by decide)).2 4294967299⟩

namespace SimdAvx

theorem tailFuelS_fst (t : Nat) :
    ∀ (n i : Nat) (s : List Nat × Int), (tailFuelS t n i s).1 = s.1 := by
  intro n
  induction n with
  | zero => intro i s; rfl
  | succ n ih =>
    intro i s
    by_cases h : t ≤ s.1.getD i 0
    · simp only [tailFuelS, if_pos h]
    · simp only [tailFuelS, if_neg h]
      exact ih (i + 1) s

theorem tailFuelS_snd (input : List Nat) (t : Nat) :
    ∀ (n i : Nat) (r : Int),
      (tailFuelS t n i (input, r)).2 =
        if tailFuel input t n i = -1 then r else tailFuel input t n i := by
  intro n
  induction n with
  | zero => intro i r; simp [tailFuelS, tailFuel]
  | succ n ih =>
    intro i r
    by_cases h : t ≤ input.getD i 0
    · have hne : ((i : Nat) : Int) ≠ -1 := by omega
      simp only [tailFuelS, tailFuel, if_pos h, if_neg hne]
    · simp only [tailFuelS, tailFuel, if_neg h]
      exact ih (i + 1) r

theorem strideFuelS_fst (t size : Nat) :
    ∀ (n i : Nat) (s : List Nat × Int), (strideFuelS t size n i s).1 = s.1 := by
  intro n
  induction n with
  | zero => intro i s; exact tailFuelS_fst t (size - i) i s
  | succ n ih =>
    intro i s
    simp only [strideFuelS]
    by_cases hg : i + 15 < size
    · simp only [if_pos hg]
      by_cases hm : strideMask s.1 t i ≠ 0
      · simp only [if_pos hm]
        cases firstMaskBit (strideMask s.1 t i) with
        | some j => rfl
        | none => exact ih (i + 16) s
      · simp only [if_neg hm]
        exact ih (i + 16) s
    · simp only [if_neg hg]
      exact tailFuelS_fst t (size - i) i s

theorem strideFuelS_snd (input : List Nat) (t size : Nat) :
    ∀ (n i : Nat) (r : Int),
      (strideFuelS t size n i (input, r)).2 =
        if strideFuel input t size n i = -1 then r
        else strideFuel input t size n i := by
  intro n
  induction n with
  | zero => intro i r; exact tailFuelS_snd input t (size - i) i r
  | succ n ih =>
    intro i r
    simp only [strideFuelS, strideFuel]
    by_cases hg : i + 15 < size
    · simp only [if_pos hg]
      by_cases hm : strideMask input t i ≠ 0
      · simp only [if_pos hm]
        cases firstMaskBit (strideMask input t i) with
        | some j =>
          have hne : (((i + j : Nat)) : Int) ≠ -1 := by omega
          simp only [if_neg hne]
        | none => exact ih (i + 16) r
      · simp only [if_neg hm]
        exact ih (i + 16) r
    · simp only [if_neg hg]
      exact tailFuelS_snd input t (size - i) i r

/-- The state-passing AVX2 scanner never writes the array memory. -/
theorem find16S_fst (input : List Nat) (k size : Nat) (r : Int) :
    (find16S k size (input, r)).1 = input := by
  unfold find16S
  by_cases h0 : size = 0
  · simp only [if_pos h0]
  · simp only [if_neg h0]
    by_cases h16 : size ≤ 16
    · simp only [if_pos h16]
      exact tailFuelS_fst k (size - 0) 0 (input, -1)
    · simp only [if_neg h16]
      exact strideFuelS_fst k size ((size - 0 + 15) / 16) 0 (input, -1)

/-- The result cell of the state-passing AVX2 scanner ends up holding
exactly the value of the pure embedding, for any initial cell content. -/
theorem find16S_snd (input : List Nat) (k size : Nat) (r : Int) :
    (find16S k size (input, r)).2 = find16 input k size := by
  unfold find16S find16
  by_cases h0 : size = 0
  · simp only [if_pos h0]
  · simp only [if_neg h0]
    by_cases h16 : size ≤ 16
    · simp only [if_pos h16]
      rw [show tailLoopS k size 0 ((input, r).1, (-1 : Int)) =
          tailFuelS k (size - 0) 0 (input, -1) from rfl,
        tailFuelS_snd input k (size - 0) 0 (-1)]
      unfold tailLoop
      split
      · rename_i hv; exact hv.symm
      · rfl
    · simp only [if_neg h16]
      rw [show strideLoopS k size 0 ((input, r).1, (-1 : Int)) =
          strideFuelS k size ((size - 0 + 15) / 16) 0 (input, -1) from rfl,
        strideFuelS_snd input k size ((size - 0 + 15) / 16) 0 (-1)]
      unfold strideLoop
      split
      · rename_i hv; exact hv.symm
      · rfl

end SimdAvx

namespace SimdAvx512

theorem eqFuelS_fst (t : Nat) :
    ∀ (n i : Nat) (s : List Nat × Int), (eqFuelS t n i s).1 = s.1 := by
  intro n
  induction n with
  | zero => intro i s; rfl
  | succ n ih =>
    intro i s
    by_cases h : s.1.getD i 0 = t
    · simp only [eqFuelS, if_pos h]
    · simp only [eqFuelS, if_neg h]
      exact ih (i + 1) s

theorem eqFuelS_snd (input : List Nat) (t : Nat) :
    ∀ (n i : Nat) (r : Int),
      (eqFuelS t n i (input, r)).2 =
        if eqFuel input t n i = -1 then r else eqFuel input t n i := by
  intro n
  induction n with
  | zero => intro i r; simp [eqFuelS, eqFuel]
  | succ n ih =>
    intro i r
    by_cases h : input.getD i 0 = t
    · have hne : ((i : Nat) : Int) ≠ -1 := by omega
      simp only [eqFuelS, eqFuel, if_pos h, if_neg hne]
    · simp only [eqFuelS, eqFuel, if_neg h]
      exact ih (i + 1) r

/-- The state-passing AVX512 scanner never writes the array memory. -/
theorem find16S_mem_unchanged (input : List Nat) (k size : Nat) (r : Int) :
    (find16S k size (input, r)).1 = input := by
  unfold find16S
  exact eqFuelS_fst k (intOfUInt64 size).toNat 0 (input, -1)

/-- The result cell of the state-passing AVX512 scanner ends up holding
exactly the value of the pure embedding, for any initial cell content. -/
theorem find16S_result_eq (input : List Nat) (k size : Nat) (r : Int) :
    (find16S k size (input, r)).2 = find16 input k size := by
  unfold find16S find16
  rw [show eqFuelS k (intOfUInt64 size).toNat 0 ((input, r).1, (-1 : Int)) =
      eqFuelS k (intOfUInt64 size).toNat 0 (input, -1) from rfl,
    eqFuelS_snd input k (intOfUInt64 size).toNat 0 (-1)]
  unfold eqLoop
  split
  · rename_i hv; exact hv.symm
  · rfl

end SimdAvx512

/-- Claim C8: neither Scanner variant mutates the input array — in the
state-passing embeddings the array memory component is returned
unchanged — the only state written is the single result cell, whose
final value is the pure function of the inputs (independent of the
cell's prior content), so two calls with identical inputs produce
identical results. -/
theorem claim_c8_no_mutation_pure (input : List Nat) (k size : Nat) (r : Int) :
    ((SimdAvx.find16S k size (input, r)).1 = input ∧
      (SimdAvx512.find16S k size (input, r)).1 = input) ∧
    ((SimdAvx.find16S k size (input, r)).2 = SimdAvx.find16 input k size ∧
      (SimdAvx512.find16S k size (input, r)).2 = SimdAvx512.find16 input k size) ∧
    ∀ r' : Int,
      SimdAvx.find16S k size (input, r) = SimdAvx.find16S k size (input, r') ∧
      SimdAvx512.find16S k size (input, r) = SimdAvx512.find16S k size (input, r') :=
  ⟨⟨SimdAvx.find16S_fst input k size r, SimdAvx512.find16S_mem_unchanged input k size r⟩,
    ⟨SimdAvx.find16S_snd input k size r, SimdAvx512.find16S_result_eq input k size r⟩,
    fun _ => ⟨rfl, rfl⟩⟩

/-- Claim C1 (code bug): on the sorted array of seventeen copies of
`40000` with key `1`, the naive unsigned scalar scan finds index `0`
(the conjuncts exhibit `A[0] >= 1` and sortedness), but the Wide Vector
Scanner returns `16`: `_mm256_cmpgt_epi16` compares the lanes as
*signed* 16-bit values, so the whole first stride is missed and only
the scalar tail hits. -/
theorem claim_c1_signed_compare_divergence :
    SimdAvx.find16 (List.replicate 17 40000) 1 17 = 16 ∧
    (1 : Nat) ≤ (List.replicate 17 40000).getD 0 0 ∧
    (∀ p, p ≤ 16 → ∀ q, q ≤ 16 → p ≤ q →
      (List.replicate 17 40000).getD p 0 ≤ (List.replicate 17 40000).getD q 0) := by
  decide

/-- Claim C2 (code bug): in the stride starting at offset `0` over
sixteen copies of `40000` with key `1`, every loaded element is `>= key`
in unsigned 16-bit order, yet the byte mask is all-zero — the vector
compare is signed, so lanes holding `40000` (negative as `int16_t`) are
not flagged. -/
theorem claim_c2_lane_mask_signed_divergence :
    SimdAvx.strideMask (List.replicate 16 40000) 1 0 = 0 ∧
    (∀ j, j ≤ 15 → (1 : Nat) ≤ (List.replicate 16 40000).getD j 0) := by
  decide

/-- Claim C3 (code bug): on seventeen copies of `33000` with key `1`
every element is `>= key` unsigned, so the claim demands index `0`, but
the Wide Vector Scanner returns `16` (the signed lane compare misses the
first stride and the scalar tail finds index `16`). -/
theorem claim_c3_all_ge_not_zero :
    (∀ i, i < 17 → (1 : Nat) ≤ (List.replicate 17 33000).getD i 0) ∧
    SimdAvx.find16 (List.replicate 17 33000) 1 17 = 16 := by
  decide

/-- Claim C5 (code bug): both scanners do return `-1` on `length = 0`,
but the sentinel is not returned *exactly* when no element is `>= key`:
on thirty-two copies of `40000` with key `1` every element is `>= key`
unsigned, yet the Wide Vector Scanner returns `-1` because the signed
stride compare misses every stride and no tail remains. -/
theorem claim_c5_sentinel_divergence :
    (∀ (k : Nat) (A : List Nat),
      SimdAvx.find16 A k 0 = -1 ∧ SimdAvx512.find16 A k 0 = -1) ∧
    SimdAvx.find16 (List.replicate 32 40000) 1 32 = -1 ∧
    (1 : Nat) ≤ (List.replicate 32 40000).getD 0 0 :=
  ⟨fun _ _ => ⟨rfl, rfl⟩, by decide, by decide⟩

/-- Claim C7 (code bug): at length exactly `16` the small-array scalar
bypass and the full vectorized path disagree on sixteen copies of
`40000` with key `1`: the bypass compares unsigned and returns `0`,
while the vectorized path's signed stride misses all lanes and its tail
is empty, giving `-1`. -/
theorem claim_c7_bypass_vector_divergence :
    SimdAvx.find16 (List.replicate 16 40000) 1 16 = 0 ∧
    SimdAvx.vectorPath (List.replicate 16 40000) 1 16 = -1 := by
  decide

end Roaring
